import Mathlib

/-
Verification development for the DocQueryAI repository.

The repository's frontend (React components, `frontend/src`), its job CLI
(`scripts/submit-job.mjs`) and its documentation are present; the Flask
backend (`backend/app.py`: chunker, embedding/retrieval engine, job
orchestrator, streaming relay) is not part of the source tree available
here.  Definitions taken from present source files carry a comment naming
the file; definitions for the missing backend are modelled from the
specification and say so in their doc comment.
-/

namespace DocQueryAI

/-! ## A small model of JavaScript/JSON values

The frontend manipulates parsed JSON (`JSON.parse`) and relies on
JavaScript truthiness and property access.  `JVal.undefined` stands for the
JavaScript value `undefined`, which property access on a non-object
yields. -/

inductive JVal where
  | undefined : JVal
  | null : JVal
  | bool : Bool → JVal
  | num : Int → JVal
  | str : String → JVal
  | arr : List JVal → JVal
  | obj : List (String × JVal) → JVal

/-- JavaScript truthiness of a value: `undefined`, `null`, `false`, `0` and
the empty string are falsy; every array and object is truthy. -/
def truthy : JVal → Bool
  | .undefined => false
  | .null => false
  | .bool b => b
  | .num n => n != 0
  | .str s => s != ""
  | .arr _ => true
  | .obj _ => true

/-- Field lookup in an object's field list; an absent field reads as
`undefined`. -/
def jfield (fs : List (String × JVal)) (k : String) : JVal :=
  match fs.find? (fun p => p.1 == k) with
  | some p => p.2
  | none => .undefined

/-- JavaScript property access `v.k`: throws a `TypeError` on `null` or
`undefined`, reads the field on an object, and yields `undefined` on any
other primitive. -/
def getProp : JVal → String → Except String JVal
  | .undefined, _ => .error "TypeError"
  | .null, _ => .error "TypeError"
  | .obj fs, k => .ok (jfield fs k)
  | _, _ => .ok .undefined

/-- Optional-chaining property access `v?.k`: `null` and `undefined` yield
`undefined` instead of throwing. -/
def optGet : JVal → String → JVal
  | .obj fs, k => jfield fs k
  | _, _ => .undefined

/-- Whether a value is an array (`Array.isArray`). -/
def isArr : JVal → Bool
  | .arr _ => true
  | _ => false

/-- Whether an object value carries the named field. -/
def hasField (v : JVal) (k : String) : Bool :=
  match v with
  | .obj fs => (fs.find? (fun p => p.1 == k)).isSome
  | _ => false

/-! ## Conversation import (frontend/src/App.js, `importConversations`)

From src/unnamed/part_013 lines 354-397: the parsed file is wrapped in a
one-element list unless it already is an array, each candidate is kept
only if `conv.id && conv.title && conv.messages &&
Array.isArray(conv.messages)` holds, and the saved list is extended only
when at least one candidate survives; any exception (JSON parse failure,
property access on `null`) leaves the saved list untouched. -/

/-- The validity test `conv.id && conv.title && conv.messages &&
Array.isArray(conv.messages)`, with JavaScript short-circuiting and the
possibility of a `TypeError` on a `null` entry. -/
def isValidConv (c : JVal) : Except String Bool := do
  let i ← getProp c "id"
  if truthy i then
    let t ← getProp c "title"
    if truthy t then
      let m ← getProp c "messages"
      if truthy m then
        return isArr m
      else
        return false
    else
      return false
  else
    return false

/-- `Array.prototype.filter` applied to `isValidConv`, evaluated left to
right; a thrown `TypeError` aborts the whole filter. -/
def filterValid : List JVal → Except String (List JVal)
  | [] => .ok []
  | c :: cs =>
    match isValidConv c with
    | .error e => .error e
    | .ok true => (filterValid cs).map (fun out => c :: out)
    | .ok false => filterValid cs

/-- The candidate list: an array contributes its elements, any other value
is treated as a single conversation. -/
def candidates : JVal → List JVal
  | .arr xs => xs
  | v => [v]

/-- `importConversations` from frontend/src/App.js (src/unnamed/part_013
lines 354-397).  `parsed` is the result of `JSON.parse` on the file's
text, `none` when parsing threw. -/
def importConversations (saved : List JVal) (parsed : Option JVal) : List JVal :=
  match parsed with
  | none => saved
  | some v =>
    match filterValid (candidates v) with
    | .error _ => saved
    | .ok valid => if valid.isEmpty then saved else saved ++ valid

theorem filterValid_ok_mem {l out : List JVal} (h : filterValid l = .ok out) :
    ∀ c ∈ out, isValidConv c = .ok true := by
  induction l generalizing out with
  | nil =>
    simp only [filterValid, Except.ok.injEq] at h
    subst h
    intro c hc
    cases hc
  | cons a as ih =>
    intro c hc
    simp only [filterValid] at h
    rcases ha : isValidConv a with e | b
    · rw [ha] at h
      cases h
    · rw [ha] at h
      cases b with
      | true =>
        rcases hr : filterValid as with e | out'
        · rw [hr] at h
          cases h
        · rw [hr] at h
          simp only [Except.map, Except.ok.injEq] at h
          subst h
          rcases List.mem_cons.mp hc with rfl | hc
          · exact ha
          · exact ih hr c hc
      | false => exact ih h c hc

theorem filterValid_none_of_all_bad {l : List JVal}
    (h : ∀ c ∈ l, isValidConv c ≠ .ok true) :
    (∃ e, filterValid l = .error e) ∨ filterValid l = .ok [] := by
  induction l with
  | nil => exact Or.inr rfl
  | cons a as ih =>
    rcases ha : isValidConv a with e | b
    · exact Or.inl ⟨e, by simp [filterValid, ha]⟩
    · cases b with
      | true => exact absurd ha (h a (List.mem_cons_self a as))
      | false =>
        have := ih (fun c hc => h c (List.mem_cons_of_mem a hc))
        rcases this with ⟨e, he⟩ | he
        · exact Or.inl ⟨e, by simp [filterValid, ha, he]⟩
        · exact Or.inr (by simp [filterValid, ha, he])

/-- C10: importing conversations adds to the saved list only entries that
pass the validity test (truthy `id`, truthy `title`, a truthy `messages`
field that is an array); every invalid entry is filtered out, and when the
file yields no valid entry at all (including when parsing or filtering
throws) the stored conversation list is left completely unchanged, while a
nonempty surviving set is appended in full. -/
theorem importConversations_adds_only_valid (saved : List JVal) (parsed : Option JVal) :
    (∀ c ∈ importConversations saved parsed, c ∈ saved ∨ isValidConv c = .ok true) ∧
    ((∀ v, parsed = some v → ∀ c ∈ candidates v, isValidConv c ≠ .ok true) →
      importConversations saved parsed = saved) ∧
    (∀ v valid, parsed = some v → filterValid (candidates v) = .ok valid → valid ≠ [] →
      importConversations saved parsed = saved ++ valid) := by
  refine ⟨?_, ?_, ?_⟩
  · intro c hc
    cases parsed with
    | none => exact Or.inl hc
    | some v =>
      rcases hf : filterValid (candidates v) with e | valid
      · simp only [importConversations, hf] at hc
        exact Or.inl hc
      · simp only [importConversations, hf] at hc
        by_cases hv : valid.isEmpty
        · rw [if_pos hv] at hc
          exact Or.inl hc
        · rw [if_neg hv] at hc
          rcases List.mem_append.mp hc with hc | hc
          · exact Or.inl hc
          · exact Or.inr (filterValid_ok_mem hf c hc)
  · intro h
    cases parsed with
    | none => rfl
    | some v =>
      rcases filterValid_none_of_all_bad (h v rfl) with ⟨e, he⟩ | he
      · simp [importConversations, he]
      · simp [importConversations, he]
  · intro v valid hv hf hne
    subst hv
    simp [importConversations, hf, List.isEmpty_iff, hne]

/-- A concrete valid conversation entry. -/
def convEx : JVal :=
  .obj [("id", .str "1"), ("title", .str "t"), ("messages", .arr [])]

/-- A concrete invalid entry: its `messages` field is not an array. -/
def badEx : JVal :=
  .obj [("id", .str "2"), ("title", .str "t"), ("messages", .str "x")]

/-- Witness for C10: importing a file holding only the invalid entry
leaves a one-element saved list unchanged. -/
theorem importConversations_adds_only_valid_witness :
    importConversations [convEx] (some (.arr [badEx])) = [convEx] := by
  refine (importConversations_adds_only_valid [convEx] (some (.arr [badEx]))).2.1 ?_
  intro v hv c hc
  cases hv
  have hc' : c = badEx := by
    simpa [candidates] using hc
  subst hc'
  have hbad : isValidConv badEx = .ok false := rfl
  simp [hbad]

/-! ## Message rendering (frontend/src/components/MessageBubble.js)

From src/unnamed/part_005 lines 9-22 (identical in
src/frontend/src/components/MessageBubble.js): a bot message is split at
the first occurrence of the marker `</think>` found by
`message.indexOf('</think>')`; the text before it, trimmed, becomes the
collapsible thinking section and the text after `thinkEndIndex + 8`,
trimmed, the visible answer.  Messages are modelled as lists of
characters. -/

def thinkMarker : List Char := "</think>".toList

/-- JavaScript `String.prototype.indexOf`: index of the first occurrence
of `pat` in `hay`, `none` for the JavaScript result `-1`. -/
def indexOfSub (hay pat : List Char) : Option Nat :=
  if pat.isPrefixOf hay then some 0
  else
    match hay with
    | [] => none
    | _ :: t => (indexOfSub t pat).map (fun n => n + 1)

/-- JavaScript `String.prototype.trim`: strip leading and trailing
whitespace. -/
def trimL (s : List Char) : List Char :=
  ((s.dropWhile Char.isWhitespace).reverse.dropWhile Char.isWhitespace).reverse

/-- The parsed content a `MessageBubble` displays: the toggleable thinking
section and the visible answer. -/
structure Parsed where
  thinking : List Char
  visible : List Char
deriving DecidableEq

/-- The `useEffect` body of `MessageBubble` (src/unnamed/part_005 lines
9-22) computing `parsedContent` from the message text and sender. -/
def parseBubble (sender : String) (message : List Char) : Parsed :=
  if sender == "bot" then
    match indexOfSub message thinkMarker with
    | some i => ⟨trimL (message.take i), trimL (message.drop (i + 8))⟩
    | none => ⟨[], message⟩
  else ⟨[], message⟩

theorem indexOfSub_eq_some {hay pat : List Char} {i : Nat}
    (h1 : pat.isPrefixOf (hay.drop i) = true)
    (h2 : ∀ j, j < i → pat.isPrefixOf (hay.drop j) = false) :
    indexOfSub hay pat = some i := by
  induction hay generalizing i with
  | nil =>
    cases i with
    | zero => simp [indexOfSub, List.drop] at h1 ⊢; exact h1
    | succ k =>
      have h0 := h2 0 (Nat.succ_pos k)
      simp [List.drop] at h0 h1
      rw [h1] at h0
      cases h0
  | cons a t ih =>
    cases i with
    | zero =>
      simp only [List.drop] at h1
      simp [indexOfSub, h1]
    | succ k =>
      have h0 := h2 0 (Nat.succ_pos k)
      simp only [List.drop] at h0 h1
      rw [indexOfSub, if_neg (by simp [h0])]
      have := ih h1 (fun j hj => h2 (j + 1) (Nat.succ_lt_succ hj))
      simp [this]

theorem indexOfSub_eq_none {hay pat : List Char}
    (h : ∀ j, pat.isPrefixOf (hay.drop j) = false) :
    indexOfSub hay pat = none := by
  induction hay with
  | nil =>
    have h0 := h 0
    simp [List.drop] at h0
    simp [indexOfSub, h0]
  | cons a t ih =>
    have h0 := h 0
    simp only [List.drop] at h0
    rw [indexOfSub, if_neg (by simp [h0])]
    have := ih (fun j => h (j + 1))
    simp [this]

/-- C8: a bot message containing `</think>` is displayed with the trimmed
text after the first occurrence of the marker as the visible answer and
the trimmed text before it as the thinking section; a bot message without
the marker, and every message from any other sender, is displayed whole
with an empty thinking section.  The first occurrence at index `i` is
characterised by the marker matching at `i` and at no earlier index. -/
theorem messageBubble_think_split (sender : String) (msg : List Char) :
    (∀ i, thinkMarker.isPrefixOf (msg.drop i) = true →
      (∀ j, j < i → thinkMarker.isPrefixOf (msg.drop j) = false) →
      parseBubble "bot" msg = ⟨trimL (msg.take i), trimL (msg.drop (i + 8))⟩) ∧
    ((∀ j, thinkMarker.isPrefixOf (msg.drop j) = false) →
      parseBubble "bot" msg = ⟨[], msg⟩) ∧
    (sender ≠ "bot" → parseBubble sender msg = ⟨[], msg⟩) := by
  refine ⟨?_, ?_, ?_⟩
  · intro i h1 h2
    rw [parseBubble, if_pos (by simp), indexOfSub_eq_some h1 h2]
  · intro h
    rw [parseBubble, if_pos (by simp), indexOfSub_eq_none h]
  · intro h
    rw [parseBubble, if_neg (by simpa using h)]

/-- Witness for C8: the bot message `ok</think> fine ` splits at index 2
into thinking `ok` and visible `fine`. -/
theorem messageBubble_think_split_witness :
    parseBubble "bot" "ok</think> fine ".toList =
      ⟨trimL ("ok</think> fine ".toList.take 2),
       trimL ("ok</think> fine ".toList.drop 10)⟩ :=
  (messageBubble_think_split "bot" "ok</think> fine ".toList).1 2
    (by decide) (by decide)

/-! ## Chat stream consumption (frontend/src/App.js, `sendMessage`)

From src/unnamed/part_013 lines 199-231 (the variant in
src/frontend/src/components/ChatInterface.js lines 220-252 is identical
up to the payload field name `text` in place of `delta`): each read chunk
is split on blank lines; every line starting with `data: ` has its
remainder fed to `JSON.parse`; a parse failure is logged and skipped; a
truthy `end` field breaks out of the loop over the current chunk's lines;
a truthy `delta` field is appended to the accumulated text.  `JSON.parse`
is the external JavaScript builtin and is abstracted as a parameter `jp`
returning `none` when it throws. -/

/-- The decoded payload of a frame as the loop inspects it: the
truthiness of its `end` field and its `delta` field when truthy. -/
structure FrameData where
  isEnd : Bool
  delta : Option (List Char)

/-- The six characters of the SSE header `data: ` stripped by
`line.substring(6)`. -/
def dataHeader : List Char := "data: ".toList

/-- The inner `for (const line of lines)` loop of `sendMessage` over one
read chunk, threading the accumulated text; `break` on a truthy `end`
returns the accumulator for this chunk. -/
def processChunk (jp : List Char → Option FrameData) :
    List (List Char) → List Char → List Char
  | [], acc => acc
  | l :: rest, acc =>
    if dataHeader.isPrefixOf l then
      match jp (l.drop 6) with
      | none => processChunk jp rest acc
      | some d =>
        if d.isEnd then acc
        else
          match d.delta with
          | some t => processChunk jp rest (acc ++ t)
          | none => processChunk jp rest acc
    else processChunk jp rest acc

/-- The outer `while (true)` read loop of `sendMessage` over the sequence
of read chunks, each already split into lines. -/
def processStream (jp : List Char → Option FrameData) :
    List (List (List Char)) → List Char → List Char
  | [], acc => acc
  | c :: cs, acc => processStream jp cs (processChunk jp c acc)

/-- Whether a line is a well-formed frame with a truthy `end` field. -/
def isEndLine (jp : List Char → Option FrameData) (l : List Char) : Bool :=
  dataHeader.isPrefixOf l &&
    (match jp (l.drop 6) with
     | some d => d.isEnd
     | none => false)

/-- The incremental-text payload a line contributes: its `delta` when the
line is a well-formed `data: ` frame that is not an end frame. -/
def lineDelta (jp : List Char → Option FrameData) (l : List Char) :
    Option (List Char) :=
  if dataHeader.isPrefixOf l then
    match jp (l.drop 6) with
    | some d => if d.isEnd then none else d.delta
    | none => none
  else none

/-- The concatenated payloads of the well-formed frames of `ls` preceding
its first end frame. -/
def deltasBeforeEnd (jp : List Char → Option FrameData) (ls : List (List Char)) :
    List Char :=
  ((ls.takeWhile fun l => !(isEndLine jp l)).filterMap (lineDelta jp)).flatten

/-- Follows the claim's words: the accumulated text the claim predicts for
a whole stream, namely the payloads of all well-formed frames that arrive
before an end frame, across all chunks. -/
def claimedStreamText (jp : List Char → Option FrameData)
    (chunks : List (List (List Char))) : List Char :=
  deltasBeforeEnd jp chunks.flatten

/-- A concrete parse oracle: payload `E` decodes to an end frame, payload
`X` to a delta frame contributing `x`, anything else fails to parse. -/
def jpEx : List Char → Option FrameData := fun s =>
  if s = ['E'] then some ⟨true, none⟩
  else if s = ['X'] then some ⟨false, some ['x']⟩
  else none

/-- Counterexample to C9 as stated: an end frame only breaks the loop over
its own read chunk, so a delta frame arriving in a later chunk is still
accumulated, although it arrives after an end frame. -/
theorem stream_accumulation_counterexample :
    processStream jpEx [[dataHeader ++ ['E']], [dataHeader ++ ['X']]] [] = ['x'] ∧
    claimedStreamText jpEx [[dataHeader ++ ['E']], [dataHeader ++ ['X']]] = [] ∧
    processStream jpEx [[dataHeader ++ ['E']], [dataHeader ++ ['X']]] [] ≠
      claimedStreamText jpEx [[dataHeader ++ ['E']], [dataHeader ++ ['X']]] := by
  refine ⟨by decide, by decide, by decide⟩

theorem processChunk_eq (jp : List Char → Option FrameData)
    (c : List (List Char)) (acc : List Char) :
    processChunk jp c acc = acc ++ deltasBeforeEnd jp c := by
  induction c generalizing acc with
  | nil => simp [processChunk, deltasBeforeEnd]
  | cons l rest ih =>
    by_cases hp : dataHeader.isPrefixOf l
    · rcases hj : jp (l.drop 6) with _ | d
      · simp [processChunk, hp, hj, ih, deltasBeforeEnd, List.takeWhile_cons,
          isEndLine, lineDelta]
      · by_cases he : d.isEnd
        · simp [processChunk, hp, hj, he, deltasBeforeEnd, List.takeWhile_cons,
            isEndLine]
        · rcases hd : d.delta with _ | t
          · simp [processChunk, hp, hj, he, hd, ih, deltasBeforeEnd,
              List.takeWhile_cons, isEndLine, lineDelta]
          · simp [processChunk, hp, hj, he, hd, ih, deltasBeforeEnd,
              List.takeWhile_cons, isEndLine, lineDelta]
    · simp [processChunk, hp, ih, deltasBeforeEnd, List.takeWhile_cons,
        isEndLine, lineDelta]

/-- C9 as amended: the accumulated bot-message text is the concatenation,
chunk by chunk, of the payloads of the well-formed `data: ` frames that
precede the first end frame of their own read chunk; an end frame only
stops the loop over its own chunk, later chunks are still processed, and
a line that does not start with `data: ` or whose payload fails to parse
is skipped without aborting the stream or altering the accumulated
text. -/
theorem stream_accumulation_per_chunk (jp : List Char → Option FrameData)
    (chunks : List (List (List Char))) :
    processStream jp chunks [] = (chunks.map (deltasBeforeEnd jp)).flatten := by
  suffices h : ∀ acc, processStream jp chunks acc =
      acc ++ (chunks.map (deltasBeforeEnd jp)).flatten by
    simpa using h []
  induction chunks with
  | nil => intro acc; simp [processStream]
  | cons c cs ih =>
    intro acc
    rw [processStream, processChunk_eq, ih]
    simp

/-! ## Job orchestrator (spec §4.3)

The orchestrator lives in the missing backend; hence it is modelled from
the specification.  States: `QUEUED → RUNNING → {DONE, ERROR}`;
`RUNNING → CANCEL_REQUESTED → CANCELLED`; `QUEUED → CANCELLED` directly
when cancellation arrives before a worker picks the job up.  `cancel` is
valid only from `QUEUED` or `RUNNING`; `delete` from any terminal state or
`QUEUED`; per §7, a cancel or delete in an ineligible state is a 409
conflict. -/

/-- Modelled from the spec: the job lifecycle states of §4.3. -/
inductive Status where
  | queued
  | running
  | done
  | error
  | cancel_requested
  | cancelled
deriving DecidableEq

/-- Modelled from the spec: the terminal states. -/
def Status.isTerminal : Status → Bool
  | .done => true
  | .error => true
  | .cancelled => true
  | _ => false

/-- Modelled from the spec: the legal transition edges of §4.3; no other
transition is legal. -/
def legalEdge : Status → Status → Bool
  | .queued, .running => true
  | .running, .done => true
  | .running, .error => true
  | .running, .cancel_requested => true
  | .cancel_requested, .cancelled => true
  | .queued, .cancelled => true
  | _, _ => false

/-- Modelled from the spec: the occurrences that can change a job's
status — a worker picking the job up, the pipeline finishing with a
result or an uncaught stage failure, a cancellation checkpoint observing
`CANCEL_REQUESTED`, and a cancel request from the API. -/
inductive JobEvent where
  | pickup
  | finishOk
  | finishErr
  | checkpoint
  | cancelReq
deriving DecidableEq

/-- The outcome of presenting one event to a job: the resulting status,
whether a transition took place, and the HTTP code answered when the
event is an API cancel request. -/
structure StepOut where
  status : Status
  applied : Bool
  httpCode : Option Nat
deriving DecidableEq

/-- Modelled from the spec: the orchestrator's reaction to one event.
Exactly the legal transitions of §4.3 are applied; everything else leaves
the status untouched, and an ineligible cancel request is answered with a
409 conflict instead of being silently ignored. -/
def stepStatus : Status → JobEvent → StepOut
  | .queued, .pickup => ⟨.running, true, none⟩
  | .running, .finishOk => ⟨.done, true, none⟩
  | .running, .finishErr => ⟨.error, true, none⟩
  | .cancel_requested, .checkpoint => ⟨.cancelled, true, none⟩
  | .queued, .cancelReq => ⟨.cancelled, true, some 202⟩
  | .running, .cancelReq => ⟨.cancel_requested, true, some 202⟩
  | s, .cancelReq => ⟨s, false, some 409⟩
  | s, _ => ⟨s, false, none⟩

/-- The statuses a job passes through under a sequence of events. -/
def statusTrace (s : Status) : List JobEvent → List Status
  | [] => []
  | e :: es =>
    let s' := (stepStatus s e).status
    s' :: statusTrace s' es

theorem stepStatus_single (s : Status) (e : JobEvent) :
    ((stepStatus s e).status ≠ s → legalEdge s (stepStatus s e).status = true) ∧
    ((stepStatus s e).status = s ↔ (stepStatus s e).applied = false) ∧
    (e = .cancelReq → ¬(s = .queued ∨ s = .running) →
      (stepStatus s e).httpCode = some 409 ∧ (stepStatus s e).status = s) := by
  cases s <;> cases e <;> simp [stepStatus, legalEdge]

/-- C1: the status only ever moves forward along the transition graph of
§4.3 — under any single event, a status change is one of the legal edges,
a status is unchanged exactly when no transition was applied, and an
ineligible cancel request is rejected with a 409 conflict rather than
silently ignored; consequently along any operation sequence consecutive
statuses are either equal or joined by a legal edge. -/
theorem job_status_transitions_legal :
    (∀ s e, ((stepStatus s e).status ≠ s → legalEdge s (stepStatus s e).status = true) ∧
      ((stepStatus s e).status = s ↔ (stepStatus s e).applied = false) ∧
      (e = .cancelReq → ¬(s = .queued ∨ s = .running) →
        (stepStatus s e).httpCode = some 409 ∧ (stepStatus s e).status = s)) ∧
    (∀ s es, List.Chain (fun a b => a = b ∨ legalEdge a b = true) s (statusTrace s es)) := by
  refine ⟨stepStatus_single, ?_⟩
  intro s es
  induction es generalizing s with
  | nil => exact List.Chain.nil
  | cons e es ih =>
    refine List.Chain.cons ?_ (ih _)
    by_cases h : (stepStatus s e).status = s
    · exact Or.inl h.symm
    · exact Or.inr ((stepStatus_single s e).1 h)

/-- Witness for C1: a cancel request on a job that is already `DONE` is
answered 409 and leaves the status unchanged. -/
theorem job_status_transitions_legal_witness :
    (stepStatus .done .cancelReq).httpCode = some 409 ∧
      (stepStatus .done .cancelReq).status = .done :=
  (job_status_transitions_legal.1 .done .cancelReq).2.2 rfl (by simp)

/-- Modelled from the spec: `cancel(job_id)` — from `QUEUED` it is applied
synchronously and the job becomes `CANCELLED`; from `RUNNING` it sets
`CANCEL_REQUESTED` and returns immediately; any other state is a 409
conflict.  It answers the HTTP code and the job's new status. -/
def cancelJob : Status → Nat × Status
  | .queued => (202, .cancelled)
  | .running => (202, .cancel_requested)
  | s => (409, s)

/-- C3: a cancel is accepted with 202 exactly from `QUEUED` or `RUNNING`
and answered 409 on a terminal job; from `QUEUED` the job moves directly
to `CANCELLED` (never entering `RUNNING`), from `RUNNING` it moves to
`CANCEL_REQUESTED`, and a refused cancel leaves the status unchanged. -/
theorem cancel_accepted_iff_queued_or_running (s : Status) :
    ((cancelJob s).1 = 202 ↔ (s = .queued ∨ s = .running)) ∧
    (s.isTerminal = true → (cancelJob s).1 = 409) ∧
    (s = .queued → (cancelJob s).2 = .cancelled) ∧
    (s = .running → (cancelJob s).2 = .cancel_requested) ∧
    ((cancelJob s).1 = 409 → (cancelJob s).2 = s) := by
  cases s <;> simp [cancelJob, Status.isTerminal]

/-- Witness for C3: cancelling a `QUEUED` job is accepted and yields
`CANCELLED` without entering `RUNNING`, and cancelling a `CANCELLED` job
is a 409. -/
theorem cancel_accepted_iff_queued_or_running_witness :
    (cancelJob .queued).1 = 202 ∧ (cancelJob .queued).2 = .cancelled ∧
      (cancelJob .cancelled).1 = 409 :=
  ⟨(cancel_accepted_iff_queued_or_running .queued).1.mpr (Or.inl rfl),
   (cancel_accepted_iff_queued_or_running .queued).2.2.1 rfl,
   (cancel_accepted_iff_queued_or_running .cancelled).2.1 rfl⟩

/-! ## Job store and deletion (spec §4.3, §6) -/

/-- Modelled from the spec: the in-memory job store, job ids mapped to
their status. -/
def Store := List (String × Status)

/-- Store lookup by job id. -/
def lookupJob (st : Store) (id : String) : Option Status :=
  (List.find? (fun p => p.1 == id) st).map (fun p => p.2)

/-- Modelled from the spec: `delete(job_id)` — 404 when the job is
unknown, a 409 conflict while `RUNNING` or `CANCEL_REQUESTED` leaving the
store unchanged, otherwise 204 and the record is removed. -/
def deleteJob (st : Store) (id : String) : Nat × Store :=
  match lookupJob st id with
  | none => (404, st)
  | some s =>
    if s = .running ∨ s = .cancel_requested then (409, st)
    else (204, List.filter (fun p => !(p.1 == id)) st)

theorem lookupJob_after_remove (st : Store) (id : String) :
    lookupJob (List.filter (fun p => !(p.1 == id)) st) id = none := by
  induction st with
  | nil => rfl
  | cons p t ih =>
    by_cases h : p.1 == id
    · simp only [List.filter, h, Bool.not_true]
      exact ih
    · simp only [List.filter, h, Bool.not_false, lookupJob, List.find?]
      exact ih

/-- C4: deleting an existing job succeeds with 204 — after which looking
the job up finds nothing — exactly when its status is terminal or
`QUEUED`, and is answered with a 409 conflict leaving the store unchanged
exactly when the job is `RUNNING` or `CANCEL_REQUESTED`. -/
theorem delete_job_spec (st : Store) (id : String) (s : Status)
    (h : lookupJob st id = some s) :
    (((deleteJob st id).1 = 204 ∧ lookupJob (deleteJob st id).2 id = none) ↔
      (s.isTerminal = true ∨ s = .queued)) ∧
    ((s = .running ∨ s = .cancel_requested) →
      (deleteJob st id).1 = 409 ∧ (deleteJob st id).2 = st) := by
  constructor
  · constructor
    · intro hd
      by_contra hns
      have hrc : s = .running ∨ s = .cancel_requested := by
        cases s <;> simp [Status.isTerminal] at hns ⊢
      have : (deleteJob st id).1 = 409 := by
        simp [deleteJob, h, hrc]
      rw [this] at hd
      exact absurd hd.1 (by simp)
    · intro hs
      have hrc : ¬(s = .running ∨ s = .cancel_requested) := by
        rcases hs with hs | hs <;> cases s <;>
          simp_all [Status.isTerminal]
      refine ⟨by simp [deleteJob, h, hrc], ?_⟩
      simp only [deleteJob, h, if_neg hrc]
      exact lookupJob_after_remove st id
  · intro hrc
    simp [deleteJob, h, hrc]

/-- Witness for C4: in a store holding one `DONE` job, deleting it is a
204 and the job is gone afterwards. -/
theorem delete_job_spec_witness :
    (deleteJob [("j1", Status.done)] "j1").1 = 204 ∧
      lookupJob (deleteJob [("j1", Status.done)] "j1").2 "j1" = none :=
  (delete_job_spec [("j1", Status.done)] "j1" .done (by rfl)).1.mpr
    (Or.inl rfl)

/-! ## Run-and-wait job submission (POST /jobs; spec §4.3/§6 and
scripts/submit-job.mjs)

The handler itself is in the missing backend; the CLI consuming its
response is src/unnamed/part_000.  Lines 30-34 there destructure the
response as `{ job_id, elapsed_sec, local_validation, result }` and print
`local_validation?.schema_ok` under the label `schema_ok`: the validation
flag the program exchanges is nested under `local_validation`, not a
top-level `schema_ok` field. -/

/-- From src/unnamed/part_000 line 34: the flag the CLI prints as
`schema_ok`, read through `local_validation?.schema_ok`. -/
def cliSchemaOk (resp : JVal) : JVal :=
  optGet (optGet resp "local_validation") "schema_ok"

/-- Follows the claim's words: a response whose shape is
`{job_id, elapsed_sec, schema_ok, result}` — exactly those four fields,
with `schema_ok` at top level. -/
def specRunWaitShape (resp : JVal) : Bool :=
  hasField resp "job_id" && hasField resp "elapsed_sec" &&
    hasField resp "schema_ok" && hasField resp "result" &&
    (match resp with
     | .obj fs => fs.length == 4
     | _ => false)

/-- A concrete response of exactly the shape the claim states. -/
def specShapedEx : JVal :=
  .obj [("job_id", .str "j1"), ("elapsed_sec", .num 3),
        ("schema_ok", .bool true), ("result", .obj [])]

/-- Counterexample to C2 as stated: on a response of exactly the claimed
shape the CLI's printed `schema_ok`, read from
`local_validation?.schema_ok`, is `undefined` — the program nests the
validation flag under `local_validation` instead of a top-level
`schema_ok` field. -/
theorem run_and_wait_shape_counterexample :
    specRunWaitShape specShapedEx = true ∧
    cliSchemaOk specShapedEx = .undefined ∧
    truthy (cliSchemaOk specShapedEx) = false :=
  ⟨rfl, rfl, rfl⟩

/-- Modelled from the spec: the run-and-wait handler's wait, one tick per
event of the worker's schedule `sched`, blocking until the job is
terminal or `timeout` ticks have elapsed; it yields the final observed
status and the elapsed ticks. -/
def waitLoop (sched : Nat → JobEvent) : Nat → Nat → Status → Status × Nat
  | 0, t, s => (s, t)
  | f + 1, t, s =>
    if s.isTerminal then (s, t)
    else waitLoop sched f (t + 1) (stepStatus s (sched t)).status

/-- Modelled from the spec and the CLI consumer: the single run-and-wait
response, with the validation flag nested as `local_validation.schema_ok`
— the path the CLI reads. -/
def runAndWait (jid : String) (timeout : Nat) (sched : Nat → JobEvent)
    (sOk : Bool) (resData : JVal) : JVal :=
  let p := waitLoop sched timeout 0 .queued
  .obj [("job_id", .str jid), ("elapsed_sec", .num p.2),
        ("local_validation", .obj [("schema_ok", .bool sOk)]),
        ("result", resData)]

theorem waitLoop_bound (sched : Nat → JobEvent) (f t : Nat) (s : Status) :
    (waitLoop sched f t s).2 ≤ t + f ∧
    ((waitLoop sched f t s).1.isTerminal = true ∨
      (waitLoop sched f t s).2 = t + f) := by
  induction f generalizing t s with
  | zero => simp [waitLoop]
  | succ f ih =>
    by_cases hs : s.isTerminal
    · simp [waitLoop, hs, Nat.le_add_right]
    · have h2 := ih (t + 1) (stepStatus s (sched t)).status
      rw [waitLoop, if_neg (by simp [hs])]
      have h3 := h2.1
      refine ⟨by omega, ?_⟩
      rcases h2.2 with h | h
      · exact Or.inl h
      · exact Or.inr (by omega)

/-- C2 as amended: the run-and-wait submission blocks until the job
reaches a terminal state or the bounded timeout elapses — the elapsed
tick count never exceeds the timeout — and then returns one response
carrying `job_id`, `elapsed_sec`, `result` and the validation flag nested
as `local_validation.schema_ok`, where the CLI reads it. -/
theorem run_and_wait_blocks_and_shape (jid : String) (timeout : Nat)
    (sched : Nat → JobEvent) (sOk : Bool) (resData : JVal) :
    ((waitLoop sched timeout 0 .queued).1.isTerminal = true ∨
      (waitLoop sched timeout 0 .queued).2 = timeout) ∧
    (waitLoop sched timeout 0 .queued).2 ≤ timeout ∧
    optGet (runAndWait jid timeout sched sOk resData) "job_id" = .str jid ∧
    optGet (runAndWait jid timeout sched sOk resData) "elapsed_sec" =
      .num (waitLoop sched timeout 0 .queued).2 ∧
    cliSchemaOk (runAndWait jid timeout sched sOk resData) = .bool sOk ∧
    optGet (runAndWait jid timeout sched sOk resData) "result" = resData := by
  have hb := waitLoop_bound sched timeout 0 .queued
  refine ⟨?_, ?_, rfl, rfl, rfl, rfl⟩
  · simpa using hb.2
  · simpa using hb.1

/-! ## Streaming relay (spec §4.4)

The relay is part of the missing backend; modelled from the
specification: incremental text fragments are relayed in order as data
frames and the stream is terminated by an explicit end frame on normal
completion, replaced by an explicit error frame when the upstream call
fails mid-stream — never a silent close. -/

inductive SFrame where
  | data (text : List Char)
  | endFrame
  | errFrame (msg : List Char)
deriving DecidableEq

/-- Whether a frame is one of the two explicit terminal frames. -/
def SFrame.isTerminalFrame : SFrame → Bool
  | .data _ => false
  | _ => true

/-- Modelled from the spec: the explicit terminal marker — an end frame on
normal completion, an error frame carrying the failure message when the
upstream call failed mid-stream. -/
def terminalFrame : Option (List Char) → SFrame
  | none => .endFrame
  | some e => .errFrame e

/-- Modelled from the spec: the streaming relay of §4.4, applied to the
incremental text fragments received upstream and the upstream failure, if
any. -/
def relay (tokens : List (List Char)) (failure : Option (List Char)) :
    List SFrame :=
  tokens.map SFrame.data ++ [terminalFrame failure]

/-- C5: every chat streaming response is the sequence of incremental-text
frames followed by exactly one explicit terminal frame, which is the last
frame of the stream: an end frame exactly on normal completion and an
explicit error frame carrying the failure when the upstream call failed
mid-stream, so a consumer can always distinguish the two. -/
theorem relay_explicit_termination (tokens : List (List Char))
    (failure : Option (List Char)) :
    relay tokens failure = tokens.map SFrame.data ++ [terminalFrame failure] ∧
    (relay tokens failure).countP (fun f => f.isTerminalFrame) = 1 ∧
    (relay tokens failure).getLast? = some (terminalFrame failure) ∧
    ((terminalFrame failure) = .endFrame ↔ failure = none) ∧
    (∀ e, failure = some e → terminalFrame failure = .errFrame e) := by
  refine ⟨rfl, ?_, ?_, ?_, ?_⟩
  · simp [relay, List.countP_append, List.countP_map, Function.comp,
      SFrame.isTerminalFrame, List.countP_cons]
    cases failure <;> simp [terminalFrame, SFrame.isTerminalFrame, List.countP_eq_zero]
  · simp [relay]
  · cases failure <;> simp [terminalFrame]
  · intro e he
    subst he
    rfl

/-- Witness for C5: a one-token stream that fails upstream ends in the
explicit error frame, not a silent close. -/
theorem relay_explicit_termination_witness :
    terminalFrame (some ['b']) = .errFrame ['b'] :=
  (relay_explicit_termination [['h']] (some ['b'])).2.2.2.2 ['b'] rfl

/-! ## Chunker (spec §4.1)

The chunker (`chunk_text` in the missing backend) is modelled from the
specification: windows of `size` characters are cut at the best boundary
found scanning backward — sentence terminator, then paragraph break, then
single newline, then plain whitespace, else the hard `size` limit — and
each chunk after the first begins `overlap` characters before the
previous chunk's end, clamped so that every start offset strictly
increases. -/

/-- A chunk: its start and stop offsets into the document text and its
content. -/
structure ChunkRec where
  start : Nat
  stop : Nat
  content : List Char

/-- Whether a character is a sentence terminator. -/
def isSentenceEnd (c : Char) : Bool := c = '.' || c = '?' || c = '!'

/-- The largest index of the list whose character satisfies `p`. -/
def lastPos (p : Char → Bool) : List Char → Option Nat
  | [] => none
  | c :: cs =>
    match lastPos p cs with
    | some i => some (i + 1)
    | none => if p c then some 0 else none

/-- The largest index at which a paragraph break (double newline)
starts. -/
def lastPara : List Char → Option Nat
  | [] => none
  | [_] => none
  | a :: b :: rest =>
    match lastPara (b :: rest) with
    | some i => some (i + 1)
    | none => if a = '\n' && b = '\n' then some 0 else none

/-- Modelled from the spec: the boundary search of §4.1 on the current
window, preferring in order a sentence terminator, a paragraph break, a
single newline and plain whitespace, cutting just after the boundary
found; with none in the window, the hard cut is at the window's end. -/
def boundaryCut (w : List Char) : Nat :=
  match lastPos isSentenceEnd w with
  | some i => i + 1
  | none =>
    match lastPara w with
    | some i => i + 2
    | none =>
      match lastPos (fun c => c = '\n') w with
      | some i => i + 1
      | none =>
        match lastPos (fun c => c.isWhitespace) w with
        | some i => i + 1
        | none => w.length

/-- Modelled from the spec: the chunking loop, fueled; `none` marks fuel
exhaustion and is shown unreachable.  A window shorter than `size` —
including the whole text when it is shorter than `size` — is emitted as
one final chunk, so a remainder shorter than `overlap` is never
dropped. -/
def chunkAux (text : List Char) (size overlap : Nat) :
    Nat → Nat → Option (List ChunkRec)
  | 0, _ => none
  | fuel + 1, start =>
    if text.length ≤ start + size then
      some [⟨start, text.length, text.drop start⟩]
    else
      match chunkAux text size overlap fuel
        (max (start + boundaryCut ((text.drop start).take size) - overlap) (start + 1)) with
      | none => none
      | some cs =>
        some (⟨start, start + boundaryCut ((text.drop start).take size),
          (text.drop start).take (boundaryCut ((text.drop start).take size))⟩ :: cs)

/-- Modelled from the spec: `chunk(text, chunk_size, overlap)`, with fuel
`text.length + 1`, which the termination theorem shows is always
enough. -/
def chunk (text : List Char) (size overlap : Nat) : Option (List ChunkRec) :=
  chunkAux text size overlap (text.length + 1) 0

theorem chunkAux_isSome (text : List Char) (size overlap : Nat) :
    ∀ fuel start, text.length - start < fuel →
      (chunkAux text size overlap fuel start).isSome = true := by
  intro fuel
  induction fuel with
  | zero => intro start h; omega
  | succ fuel ih =>
    intro start h
    by_cases hstop : text.length ≤ start + size
    · simp [chunkAux, hstop]
    · rw [chunkAux, if_neg hstop]
      have hnext : start + 1 ≤
          max (start + boundaryCut ((text.drop start).take size) - overlap) (start + 1) :=
        le_max_right _ _
      have hrec := ih (max (start + boundaryCut ((text.drop start).take size) - overlap)
        (start + 1)) (by omega)
      rcases hr : chunkAux text size overlap fuel (max (start +
          boundaryCut ((text.drop start).take size) - overlap) (start + 1)) with _ | cs
      · rw [hr] at hrec
        cases hrec
      · simp [hr]

theorem chunkAux_starts (text : List Char) (size overlap : Nat) :
    ∀ fuel start cs, chunkAux text size overlap fuel start = some cs →
      (cs.map ChunkRec.start).Pairwise (· < ·) ∧
      ∀ x ∈ cs.map ChunkRec.start, start ≤ x := by
  intro fuel
  induction fuel with
  | zero => intro start cs h; cases h
  | succ fuel ih =>
    intro start cs h
    by_cases hstop : text.length ≤ start + size
    · rw [chunkAux, if_pos hstop] at h
      cases h
      simp
    · rw [chunkAux, if_neg hstop] at h
      rcases hr : chunkAux text size overlap fuel (max (start +
          boundaryCut ((text.drop start).take size) - overlap) (start + 1)) with _ | cs'
      · rw [hr] at h
        cases h
      · rw [hr] at h
        cases h
        have hrec := ih _ cs' hr
        have hgt : ∀ x ∈ cs'.map ChunkRec.start, start < x := by
          intro x hx
          have := hrec.2 x hx
          have := le_max_right (start + boundaryCut ((text.drop start).take size)
            - overlap) (start + 1)
          omega
        constructor
        · rw [List.map_cons, List.pairwise_cons]
          exact ⟨hgt, hrec.1⟩
        · intro x hx
          simp only [List.map_cons, List.mem_cons] at hx
          rcases hx with rfl | hx
          · exact Nat.le_refl _
          · exact Nat.le_of_lt (hgt x hx)

/-- C6: `chunk(text, chunk_size, overlap)` terminates for every input
text — fuel `text.length + 1` always suffices, even for text with no
delimiter characters at all — because the start offset of each successive
emitted chunk strictly increases. -/
theorem chunk_terminates_and_starts_increase (text : List Char)
    (size overlap : Nat) :
    ∃ cs, chunk text size overlap = some cs ∧
      (cs.map ChunkRec.start).Pairwise (· < ·) := by
  have h := chunkAux_isSome text size overlap (text.length + 1) 0 (by omega)
  rcases ho : chunkAux text size overlap (text.length + 1) 0 with _ | cs
  · rw [ho] at h
    cases h
  · exact ⟨cs, ho, (chunkAux_starts text size overlap _ 0 cs ho).1⟩

/-! ## Embedding & retrieval engine (spec §4.2)

The engine (`find_relevant_chunks` in the missing backend) is modelled
from the specification: every chunk of the document that has an embedding
is scored against the query embedding, the scored chunks are sorted
descending by score with ties broken by original chunk order (stable
sort), and the first `k` are returned; when the document has no embedded
chunk at all, the degraded mode returns the first `k` chunks in document
order, flagged as unranked.  The cosine-similarity scorer lives in the
missing backend as well and only its ordering matters to the claim, so it
is a parameter `sim`. -/

/-- A document chunk as retrieval sees it: its content and its optional
embedding vector. -/
structure RChunk where
  content : List Char
  emb : Option (List Rat)

/-- The number of chunks of the document that carry an embedding. -/
def embCount (doc : List RChunk) : Nat :=
  doc.countP (fun c => c.emb.isSome)

/-- A scored chunk: its original position in the document, its similarity
score, and the chunk itself. -/
structure Scored where
  idx : Nat
  score : Rat
  chunk : RChunk

/-- Modelled from the spec: score every chunk that has an embedding,
remembering its original document position (`i` is the position of the
first chunk of the list). -/
def scoreChunks (sim : List Rat → List Rat → Rat) (q : List Rat) :
    Nat → List RChunk → List Scored
  | _, [] => []
  | i, c :: cs =>
    match c.emb with
    | some e => ⟨i, sim q e, c⟩ :: scoreChunks sim q (i + 1) cs
    | none => scoreChunks sim q (i + 1) cs

/-- The comparison handed to the stable sort: higher score first, equal
scores in original document order. -/
def rankLE (a b : Scored) : Bool :=
  decide (b.score < a.score ∨ (a.score = b.score ∧ a.idx ≤ b.idx))

/-- Modelled from the spec: the ranked path of `retrieve` — sort the
scored chunks descending by score, ties in original order, and keep the
first `k`. -/
def retrieveRanked (sim : List Rat → List Rat → Rat) (q : List Rat)
    (doc : List RChunk) (k : Nat) : List Scored :=
  ((scoreChunks sim q 0 doc).mergeSort rankLE).take k

/-- The retrieval result: the chunks returned and the degraded-mode
flag. -/
structure RetrieveOut where
  chunks : List RChunk
  unranked : Bool

/-- Modelled from the spec: `retrieve(query, document, k)` with its
degraded mode — when no chunk has an embedding, the first `k` chunks are
returned in document order and flagged unranked. -/
def retrieve (sim : List Rat → List Rat → Rat) (q : List Rat)
    (doc : List RChunk) (k : Nat) : RetrieveOut :=
  if (scoreChunks sim q 0 doc).isEmpty then ⟨doc.take k, true⟩
  else ⟨(retrieveRanked sim q doc k).map (fun x => x.chunk), false⟩

/-- A similarity function for concrete runs; its values are irrelevant to
the counts being compared. -/
def simZero : List Rat → List Rat → Rat := fun _ _ => 0

/-- A concrete document chunk without an embedding. -/
def chunkNoEmb : RChunk := ⟨['a'], none⟩

/-- Counterexample to C7 as stated: on a document whose only chunk has no
embedding, `retrieve` answers in degraded mode with that one chunk,
exceeding `min k (number of chunks with an embedding) = 0`. -/
theorem retrieve_count_counterexample :
    (retrieve simZero [] [chunkNoEmb] 1).chunks.length = 1 ∧
    min 1 (embCount [chunkNoEmb]) = 0 ∧
    ¬((retrieve simZero [] [chunkNoEmb] 1).chunks.length ≤
      min 1 (embCount [chunkNoEmb])) := by
  refine ⟨rfl, rfl, ?_⟩
  intro h
  rw [show (retrieve simZero [] [chunkNoEmb] 1).chunks.length = 1 from rfl,
    show min 1 (embCount [chunkNoEmb]) = 0 from rfl] at h
  exact absurd h (by decide)

theorem scoreChunks_length (sim : List Rat → List Rat → Rat) (q : List Rat)
    (doc : List RChunk) : ∀ i, (scoreChunks sim q i doc).length = embCount doc := by
  induction doc with
  | nil => intro i; rfl
  | cons c cs ih =>
    intro i
    rcases hc : c.emb with _ | e
    · simp [scoreChunks, hc, embCount, List.countP_cons, ih]
    · simp [scoreChunks, hc, embCount, List.countP_cons, ih (i + 1)]

theorem scoreChunks_mem (sim : List Rat → List Rat → Rat) (q : List Rat)
    (doc : List RChunk) : ∀ i x, x ∈ scoreChunks sim q i doc →
      x.chunk.emb.isSome = true ∧ i ≤ x.idx := by
  induction doc with
  | nil => intro i x hx; cases hx
  | cons c cs ih =>
    intro i x hx
    rcases hc : c.emb with _ | e
    · rw [scoreChunks, hc] at hx
      have := ih (i + 1) x hx
      exact ⟨this.1, by omega⟩
    · rw [scoreChunks, hc] at hx
      rcases List.mem_cons.mp hx with rfl | hx
      · simp [hc]
      · have := ih (i + 1) x hx
        exact ⟨this.1, by omega⟩

theorem scoreChunks_idx_strict (sim : List Rat → List Rat → Rat) (q : List Rat)
    (doc : List RChunk) : ∀ i,
      (scoreChunks sim q i doc).Pairwise (fun a b => a.idx < b.idx) := by
  induction doc with
  | nil => intro i; exact List.Pairwise.nil
  | cons c cs ih =>
    intro i
    rcases hc : c.emb with _ | e
    · rw [scoreChunks, hc]
      exact ih (i + 1)
    · rw [scoreChunks, hc]
      refine List.pairwise_cons.mpr ⟨?_, ih (i + 1)⟩
      intro b hb
      have := (scoreChunks_mem sim q cs (i + 1) b hb).2
      show i < b.idx
      omega

theorem rankLE_trans (a b c : Scored) (hab : rankLE a b = true)
    (hbc : rankLE b c = true) : rankLE a c = true := by
  simp only [rankLE, decide_eq_true_eq] at hab hbc ⊢
  rcases hab with h1 | ⟨h1, h1i⟩
  · rcases hbc with h2 | ⟨h2, h2i⟩
    · exact Or.inl (lt_trans h2 h1)
    · exact Or.inl (h2 ▸ h1)
  · rcases hbc with h2 | ⟨h2, h2i⟩
    · exact Or.inl (h1 ▸ h2)
    · exact Or.inr ⟨h1.trans h2, le_trans h1i h2i⟩

theorem rankLE_total (a b : Scored) : (rankLE a b || rankLE b a) = true := by
  simp only [rankLE, Bool.or_eq_true, decide_eq_true_eq]
  rcases lt_trichotomy a.score b.score with h | h | h
  · exact Or.inr (Or.inl h)
  · rcases Nat.le_total a.idx b.idx with hi | hi
    · exact Or.inl (Or.inr ⟨h, hi⟩)
    · exact Or.inr (Or.inr ⟨h.symm, hi⟩)
  · exact Or.inl (Or.inl h)

/-- C7 as amended: when at least one chunk of the document has an
embedding, `retrieve` ranks: it returns at most
`min k (number of chunks with an embedding)` chunks, each of which has an
embedding, ordered by strictly descending score with chunks of equal
score in their original document order; when no chunk has an embedding it
answers in degraded mode with the first `k` chunks in document order,
flagged unranked. -/
theorem retrieve_ranked_spec (sim : List Rat → List Rat → Rat) (q : List Rat)
    (doc : List RChunk) (k : Nat) :
    (0 < embCount doc →
      (retrieveRanked sim q doc k).length ≤ min k (embCount doc) ∧
      (retrieveRanked sim q doc k).Pairwise (fun a b =>
        b.score < a.score ∨ (a.score = b.score ∧ a.idx < b.idx)) ∧
      (∀ x ∈ retrieveRanked sim q doc k, x.chunk.emb.isSome = true) ∧
      retrieve sim q doc k =
        ⟨(retrieveRanked sim q doc k).map (fun x => x.chunk), false⟩) ∧
    (embCount doc = 0 → retrieve sim q doc k = ⟨doc.take k, true⟩) := by
  have hlen := scoreChunks_length sim q doc 0
  constructor
  · intro hpos
    have hne : (scoreChunks sim q 0 doc).isEmpty = false := by
      rcases hs : scoreChunks sim q 0 doc with _ | ⟨x, xs⟩
      · rw [hs] at hlen
        simp at hlen
        omega
      · rfl
    have hsorted : ((scoreChunks sim q 0 doc).mergeSort rankLE).Pairwise
        (fun a b => rankLE a b = true) :=
      List.sorted_mergeSort rankLE_trans rankLE_total (scoreChunks sim q 0 doc)
    have hperm := List.mergeSort_perm (scoreChunks sim q 0 doc) rankLE
    have hne' : ((scoreChunks sim q 0 doc).mergeSort rankLE).Pairwise
        (fun a b => a.idx ≠ b.idx) := by
      refine (List.Perm.pairwise_iff (fun hxy => Ne.symm hxy) hperm).mpr ?_
      exact (scoreChunks_idx_strict sim q doc 0).imp (fun h => Nat.ne_of_lt h)
    refine ⟨?_, ?_, ?_, ?_⟩
    · rw [retrieveRanked]
      rw [List.length_take, List.length_mergeSort, hlen]
    · refine List.Pairwise.sublist (List.take_sublist k _)
        ((hsorted.and hne').imp ?_)
      intro a b hab
      rcases hab with ⟨h1, h2⟩
      simp only [rankLE, decide_eq_true_eq] at h1
      rcases h1 with h1 | ⟨h1, h1i⟩
      · exact Or.inl h1
      · exact Or.inr ⟨h1, lt_of_le_of_ne h1i h2⟩
    · intro x hx
      have hx' : x ∈ (scoreChunks sim q 0 doc).mergeSort rankLE :=
        List.mem_of_mem_take hx
      have hx'' : x ∈ scoreChunks sim q 0 doc := hperm.mem_iff.mp hx'
      exact (scoreChunks_mem sim q doc 0 x hx'').1
    · rw [retrieve, if_neg (by simp [hne])]
  · intro hz
    have : scoreChunks sim q 0 doc = [] := by
      have := hlen
      rw [hz] at this
      exact List.length_eq_zero.mp this
    rw [retrieve, if_pos (by simp [this])]

/-- Witness for C7 as amended: on a one-chunk document whose chunk is
embedded, `retrieve` with `k = 2` returns exactly that chunk, ranked. -/
theorem retrieve_ranked_spec_witness :
    (retrieveRanked simZero [] [⟨['a'], some [1]⟩] 2).length ≤
      min 2 (embCount [⟨['a'], some [1]⟩]) :=
  ((retrieve_ranked_spec simZero [] [⟨['a'], some [1]⟩] 2).1 (by decide)).1

end DocQueryAI
